import Mathlib

/-!
Shallow embedding of the wasm-analytics-engine aggregation core
(src/time_patterns.rs, src/trends.rs, src/co_occurrence.rs, src/statistics.rs).

Modelling conventions:
* Rust `String`/`&str` values are `List Char` (UTF-8 byte order on Rust strings
  coincides with code-point lexicographic order, which is what `List Char`
  comparison uses below).
* Rust `u32`/`i32` are `Nat`/`Int`; wherever the source can overflow or wrap we
  apply an explicit reduction modulo 2^32 (release-build wrapping semantics).
* Rust `f64` intensities and statistics values are modelled as exact rationals
  (`ℚ`); sums, means and midpoint averages are modelled in exact arithmetic,
  which coincides with `f64` only where the float operations are exact.  Where
  a claim turns on the rounding of an `f64` operation, the correctly rounded
  binary64 result is modelled explicitly (`fl64` below).  Where the source
  uses `f64` on integer data (the week-number ceiling) the float computation
  is exact for all reachable magnitudes and is modelled by exact integer
  arithmetic.
* Rust `HashMap` accumulators are association lists in first-insertion order;
  the source's map iteration order is unspecified, so the list realizes one
  admissible order.
* A Rust panic (index out of bounds, integer underflow) is modelled by an
  `Option` result being `none`.
-/

/-- Wrap an integer into the `i32` range, i.e. two's-complement semantics of a
Rust `as i32` cast or of wrapping `i32` arithmetic. -/
def wrap32 (x : Int) : Int :=
  (x + 2 ^ 31) % 2 ^ 32 - 2 ^ 31

/-- Reinterpret an `i32` value as `u32` (Rust `as u32` cast). -/
def u32ofI32 (x : Int) : Nat :=
  (x % 2 ^ 32).toNat

/-- Rust `str::split(c)`: splits at every occurrence of `c`, keeping empty
segments, always returning at least one segment. -/
def splitChar (c : Char) : List Char → List (List Char)
  | [] => [[]]
  | x :: xs =>
    if x = c then [] :: splitChar c xs
    else
      match splitChar c xs with
      | [] => [[x]]
      | h :: t => (x :: h) :: t

/-- Rust `str::trim_end_matches('Z')`: drop every trailing `'Z'`. -/
def trimEndZ (s : List Char) : List Char :=
  ((s.reverse).dropWhile (· = 'Z')).reverse

/-- ASCII decimal digit test, as used by Rust's integer `FromStr`. -/
def isAsciiDigit (c : Char) : Bool :=
  '0' ≤ c && c ≤ '9'

/-- Numeric value of a decimal digit character. -/
def digitVal (c : Char) : Nat :=
  c.toNat - 48

/-- Parse a non-empty all-digit run as a natural number. -/
def parseDigits (s : List Char) : Option Nat :=
  if s = [] then none
  else if s.all isAsciiDigit then
    some (s.foldl (fun a c => a * 10 + digitVal c) 0)
  else none

/-- Rust `u32::from_str`: optional leading `'+'`, then digits, value < 2^32. -/
def parseU32 (s : List Char) : Option Nat :=
  let body := match s with
    | '+' :: t => t
    | _ => s
  match parseDigits body with
  | none => none
  | some n => if n < 2 ^ 32 then some n else none

/-- Rust `i32::from_str`: optional sign, then digits, value in i32 range. -/
def parseI32 (s : List Char) : Option Int :=
  match s with
  | '-' :: t =>
    match parseDigits t with
    | none => none
    | some n => if n ≤ 2 ^ 31 then some (-(n : Int)) else none
  | '+' :: t =>
    match parseDigits t with
    | none => none
    | some n => if n < 2 ^ 31 then some (n : Int) else none
  | _ =>
    match parseDigits s with
    | none => none
    | some n => if n < 2 ^ 31 then some (n : Int) else none

/-- Decimal digits of a natural number (fuel-based so it reduces in the
kernel); `natChars` below supplies enough fuel. -/
def natCharsAux : Nat → Nat → List Char
  | 0, _ => []
  | _ + 1, 0 => []
  | fuel + 1, n + 1 =>
    natCharsAux fuel ((n + 1) / 10) ++ [Char.ofNat (48 + (n + 1) % 10)]

/-- Decimal representation of a natural number, as Rust `format!("{}", n)`. -/
def natChars (n : Nat) : List Char :=
  if n = 0 then ['0'] else natCharsAux (n + 1) n

/-- Zero-pad a digit string on the left to the given width
(Rust `format!("{:0w}", _)` padding, sign excluded). -/
def padZeros (w : Nat) (s : List Char) : List Char :=
  List.replicate (w - s.length) '0' ++ s

/-- Rust `format!("{:0w}", n)` for a `u32` value. -/
def fmtNat (w : Nat) (n : Nat) : List Char :=
  padZeros w (natChars n)

/-- Rust `format!("{:0w}", i)` for an `i32` value: the sign participates in the
width and the zero padding goes after the sign. -/
def fmtInt (w : Nat) (i : Int) : List Char :=
  if i < 0 then '-' :: padZeros (w - 1) (natChars i.natAbs)
  else padZeros w (natChars i.toNat)

/-- Parsed timestamp record shared by both parser embeddings; this is the
`SimpleDateTime` struct of `time_patterns.rs`/`trends.rs` (the two field-name
sets differ only in underscore prefixes). -/
structure SimpleDateTime where
  year : Int
  month : Nat
  day : Nat
  hour : Nat
  minute : Nat
  weekday : Nat
  deriving DecidableEq, Repr

namespace TimePatterns

/-- Zeller weekday of `time_patterns.rs` (`calculate_weekday`): Zeller's
congruence with Rust truncated `%`/`/` on `i32`, remapped by `(h + 6) % 7`
(0 = Sunday), final `as u32` cast.  Every arithmetic step is wrapped to
`i32` exactly where the release build would wrap. -/
def calculate_weekday (year : Int) (month day : Nat) : Nat :=
  let mi := wrap32 month
  let y0 := year
  let m := if mi < 3 then wrap32 (mi + 12) else mi
  let y := if mi < 3 then wrap32 (y0 - 1) else y0
  let k := Int.tmod y 100
  let j := Int.tdiv y 100
  let e1 := wrap32 (wrap32 day + Int.tdiv (wrap32 (13 * wrap32 (m + 1))) 5)
  let e2 := wrap32 (e1 + k)
  let e3 := wrap32 (e2 + Int.tdiv k 4)
  let e4 := wrap32 (e3 + Int.tdiv j 4)
  let e5 := wrap32 (e4 - wrap32 (2 * j))
  let h := Int.tmod e5 7
  u32ofI32 (Int.tmod (h + 6) 7)

/-- Timestamp parser of `time_patterns.rs` (`parse_timestamp`). -/
def parse_timestamp (ts : List Char) : Option SimpleDateTime :=
  match splitChar 'T' ts with
  | [datePart, timePart] =>
    match splitChar '-' datePart with
    | [ys, ms, ds] =>
      match parseI32 ys, parseU32 ms, parseU32 ds with
      | some year, some month, some day =>
        match splitChar ':' (trimEndZ timePart) with
        | hs :: mins :: _ =>
          match parseU32 hs, parseU32 mins with
          | some hour, some minute =>
            some ⟨year, month, day, hour, minute, calculate_weekday year month day⟩
          | _, _ => none
        | _ => none
      | _, _, _ => none
    | _ => none
  | _ => none

end TimePatterns

namespace Trends

/-- Zeller weekday of `trends.rs` (`calculate_weekday`): identical to the
`time_patterns.rs` version except for the final remap, which is
`(h + 5) % 7` there. -/
def calculate_weekday (year : Int) (month day : Nat) : Nat :=
  let mi := wrap32 month
  let y0 := year
  let m := if mi < 3 then wrap32 (mi + 12) else mi
  let y := if mi < 3 then wrap32 (y0 - 1) else y0
  let k := Int.tmod y 100
  let j := Int.tdiv y 100
  let e1 := wrap32 (wrap32 day + Int.tdiv (wrap32 (13 * wrap32 (m + 1))) 5)
  let e2 := wrap32 (e1 + k)
  let e3 := wrap32 (e2 + Int.tdiv k 4)
  let e4 := wrap32 (e3 + Int.tdiv j 4)
  let e5 := wrap32 (e4 - wrap32 (2 * j))
  let h := Int.tmod e5 7
  u32ofI32 (Int.tmod (h + 5) 7)

/-- Timestamp parser of `trends.rs` (`parse_timestamp`); same splitting and
numeric parsing as in `time_patterns.rs`, but using this file's weekday. -/
def parse_timestamp (ts : List Char) : Option SimpleDateTime :=
  match splitChar 'T' ts with
  | [datePart, timePart] =>
    match splitChar '-' datePart with
    | [ys, ms, ds] =>
      match parseI32 ys, parseU32 ms, parseU32 ds with
      | some year, some month, some day =>
        match splitChar ':' (trimEndZ timePart) with
        | hs :: mins :: _ =>
          match parseU32 hs, parseU32 mins with
          | some hour, some minute =>
            some ⟨year, month, day, hour, minute, calculate_weekday year month day⟩
          | _, _ => none
        | _ => none
      | _, _, _ => none
    | _ => none
  | _ => none

end Trends

/-- Input record (`Reflection` in `lib.rs`).  The fields `location`, `people`,
`coping_strategies`, `mood_before` and `mood_after` are never read by any of
the four aggregators and are omitted from the embedding. -/
structure Reflection where
  timestamp : List Char
  emotion_id : Option (List Char) := none
  emotion_name : Option (List Char) := none
  intensity : Option ℚ := none
  related_emotions : Option (List (List Char)) := none

/-- Ranked tally entry (`EmotionCount` in `lib.rs`). -/
structure EmotionCount where
  emotion_id : List Char
  emotion_name : List Char
  count : Nat
  deriving DecidableEq, Repr

/-- Lexicographic `≤` on character lists: the order Rust's `str`/`String`
comparison realizes (byte order on UTF-8 agrees with code-point order). -/
def chLe : List Char → List Char → Bool
  | [], _ => true
  | _ :: _, [] => false
  | a :: as, b :: bs => if a = b then chLe as bs else decide (a < b)

/-- Bump the entry for key `k` in an association list: apply `f` to the stored
value, inserting `f init` when the key is absent.  This is Rust's
`map.entry(k).or_insert_with(init)` followed by an in-place mutation. -/
def bumpAssoc {α β : Type} [DecidableEq α] (f : β → β) (init : β) (k : α) :
    List (α × β) → List (α × β)
  | [] => [(k, f init)]
  | (k', v) :: rest =>
    if k' = k then (k', f v) :: rest else (k', v) :: bumpAssoc f init k rest

namespace Trends

/-- Per-bucket accumulator (`TrendData` in `trends.rs`). -/
structure TrendData where
  count : Nat
  intensities : List ℚ
  emotions : List (List Char × (List Char × Nat))

/-- Output point (`TrendDataPoint` in `lib.rs`). -/
structure TrendDataPoint where
  date : List Char
  count : Nat
  average_intensity : Option ℚ
  top_emotion : Option EmotionCount
  deriving DecidableEq, Repr

/-- Result triple (`TrendsResult` in `lib.rs`). -/
structure TrendsResult where
  daily : List TrendDataPoint
  weekly : List TrendDataPoint
  monthly : List TrendDataPoint
  deriving DecidableEq, Repr

/-- One bucket update (`update_trend_data` in `trends.rs`): count += 1, push
the intensity if present, bump the per-emotion tally (inserting the display
name with count 0 first when the emotion is new). -/
def update_trend_data (map : List (List Char × TrendData)) (period : List Char)
    (emotion_id emotion_name : List Char) (intensity : Option ℚ) :
    List (List Char × TrendData) :=
  bumpAssoc
    (fun d =>
      { count := d.count + 1
        intensities := d.intensities ++ (match intensity with
          | some i => [i]
          | none => [])
        emotions := bumpAssoc (fun e => (e.1, e.2 + 1)) (emotion_name, 0)
          emotion_id d.emotions })
    ⟨0, [], []⟩ period map

/-- Rust `Iterator::max_by_key` over the emotion tally: keeps the running
maximum, replacing on ties, so the last maximal element wins. -/
def maxByCount (l : List (List Char × (List Char × Nat))) :
    Option (List Char × (List Char × Nat)) :=
  l.foldl
    (fun acc e =>
      match acc with
      | none => some e
      | some a => if a.2.2 ≤ e.2.2 then some e else some a)
    none

/-- Bucket map to sorted output (`format_trends` in `trends.rs`). -/
def format_trends (map : List (List Char × TrendData)) : List TrendDataPoint :=
  let trends := map.map (fun e =>
    let data := e.2
    let average_intensity :=
      if data.intensities = [] then none
      else some (data.intensities.sum / (data.intensities.length : ℚ))
    let top_emotion := (maxByCount data.emotions).map
      (fun em => EmotionCount.mk em.1 em.2.1 em.2.2)
    TrendDataPoint.mk e.1 data.count average_intensity top_emotion)
  trends.insertionSort (fun a b => chLe a.date b.date = true)

/-- Days-per-month table of `get_week_key` (`days_in_month` in `trends.rs`). -/
def days_in_month : List Nat := [31, 28, 31, 30, 31, 30, 31, 31, 30, 31, 30, 31]

/-- Week key (`get_week_key` in `trends.rs`).  The source loops
`for i in 0..(month - 1)` over `days_in_month` with `month : u32`:
* `month = 0` makes `month - 1` underflow — a debug build panics on the
  subtraction, a release build wraps to 2^32 - 1 and the loop then reads
  `days_in_month[12]` out of bounds — so the call panics either way (`none`);
* `month ≥ 14` reads `days_in_month[12]` out of bounds (`none`);
* otherwise the loop adds the first `month - 1` table entries to `day` with
  wrapping `u32` additions (each increment is ≤ 31, so the sequence of wraps
  equals one final reduction mod 2^32).
The `f64` ceiling `(day_of_year as f64 / 7.0).ceil() as u32` is exact for every
`u32` day-of-year (the quotient is below 2^31 and at distance ≥ 1/7 from the
integers it could round across), hence the integer `(doy + 6) / 7`. -/
def get_week_key (year : Int) (month day : Nat) : Option (List Char) :=
  if month = 0 then none
  else if 14 ≤ month then none
  else
    let base := (day + (days_in_month.take (month - 1)).sum) % 2 ^ 32
    let is_leap := (Int.tmod year 4 = 0 ∧ Int.tmod year 100 ≠ 0) ∨
      Int.tmod year 400 = 0
    let day_of_year := if is_leap ∧ 2 < month then (base + 1) % 2 ^ 32 else base
    let week := (day_of_year + 6) / 7
    some (fmtInt 4 year ++ '-' :: 'W' :: fmtNat 2 week)

/-- Main loop of `compute_trends`: records with unparseable timestamps are
skipped; a panic inside `get_week_key` aborts the whole computation. -/
def trendsLoop :
    List Reflection →
    List (List Char × TrendData) × List (List Char × TrendData) ×
      List (List Char × TrendData) →
    Option (List (List Char × TrendData) × List (List Char × TrendData) ×
      List (List Char × TrendData))
  | [], acc => some acc
  | r :: rs, (dm, wm, mm) =>
    match parse_timestamp r.timestamp with
    | none => trendsLoop rs (dm, wm, mm)
    | some ts =>
      match get_week_key ts.year ts.month ts.day with
      | none => none
      | some weekly =>
        let daily := fmtInt 4 ts.year ++ '-' :: fmtNat 2 ts.month ++
          '-' :: fmtNat 2 ts.day
        let monthly := fmtInt 4 ts.year ++ '-' :: fmtNat 2 ts.month
        let eid := r.emotion_id.getD ("unknown".toList)
        let ename := r.emotion_name.getD ("Unknown".toList)
        trendsLoop rs
          (update_trend_data dm daily eid ename r.intensity,
           update_trend_data wm weekly eid ename r.intensity,
           update_trend_data mm monthly eid ename r.intensity)

/-- Trend aggregator (`compute_trends` in `trends.rs`); `none` models a panic
escaping the function. -/
def compute_trends (reflections : List Reflection) : Option TrendsResult :=
  match trendsLoop reflections ([], [], []) with
  | none => none
  | some (dm, wm, mm) =>
    some ⟨format_trends dm, format_trends wm, format_trends mm⟩

end Trends

/-- Leap-year rule as the specification words it: divisible by 4 and (not
divisible by 100, or divisible by 400). -/
def leapYearSpec (y : Int) : Prop := (4 ∣ y ∧ ¬(100 ∣ y)) ∨ 400 ∣ y

instance (y : Int) : Decidable (leapYearSpec y) := by
  unfold leapYearSpec; infer_instance

/-- Day-of-year as the specification words it: the day plus the fixed 365-day
month-length table for the preceding months, plus 1 for dates after February
in a leap year (exact arithmetic, no wraparound). -/
def dayOfYearSpec (y : Int) (month day : Nat) : Nat :=
  day + (Trends.days_in_month.take (month - 1)).sum +
    (if leapYearSpec y ∧ 2 < month then 1 else 0)

/-- Week number per the specification: `ceil(day-of-year / 7)`. -/
def weekNumberSpec (y : Int) (month day : Nat) : Nat :=
  (dayOfYearSpec y month day + 6) / 7

/-- Week key as the specification describes it: `YYYY-Www` with the exact
(unwrapped) week number. -/
def weekKeySpec (y : Int) (month day : Nat) : List Char :=
  fmtInt 4 y ++ '-' :: 'W' :: fmtNat 2 (weekNumberSpec y month day)

/-- Week key with the day-of-year reduced modulo 2^32, i.e. computed in `u32`
arithmetic as the release build does. -/
def weekKeySpecU32 (y : Int) (month day : Nat) : List Char :=
  fmtInt 4 y ++ '-' :: 'W' ::
    fmtNat 2 ((dayOfYearSpec y month day % 2 ^ 32 + 6) / 7)

namespace TimePatterns

/-- Weekday label table (`DAY_NAMES` in `time_patterns.rs`). -/
def DAY_NAMES : List (List Char) :=
  ["sunday".toList, "monday".toList, "tuesday".toList, "wednesday".toList,
   "thursday".toList, "friday".toList, "saturday".toList]

/-- Time-of-day label table (`TIME_OF_DAY_NAMES` in `time_patterns.rs`). -/
def TIME_OF_DAY_NAMES : List (List Char) :=
  ["morning".toList, "afternoon".toList, "evening".toList, "night".toList]

/-- Per-bucket accumulator (`PatternData` in `time_patterns.rs`). -/
structure PatternData where
  count : Nat
  intensities : List ℚ
  emotions : List (List Char × (List Char × Nat))

/-- Output bucket (`TimePattern` in `lib.rs`). -/
structure TimePattern where
  period : List Char
  count : Nat
  average_intensity : Option ℚ
  top_emotions : List EmotionCount
  deriving DecidableEq, Repr

/-- Result triple (`TimePatternsResult` in `lib.rs`). -/
structure TimePatternsResult where
  day_of_week : List TimePattern
  time_of_day : List TimePattern
  month : List TimePattern
  deriving DecidableEq, Repr

/-- One bucket update (`update_pattern_data` in `time_patterns.rs`); textually
the same mutation as `update_trend_data` in `trends.rs`. -/
def update_pattern_data (map : List (List Char × PatternData))
    (period : List Char) (emotion_id emotion_name : List Char)
    (intensity : Option ℚ) : List (List Char × PatternData) :=
  bumpAssoc
    (fun d =>
      { count := d.count + 1
        intensities := d.intensities ++ (match intensity with
          | some i => [i]
          | none => [])
        emotions := bumpAssoc (fun e => (e.1, e.2 + 1)) (emotion_name, 0)
          emotion_id d.emotions })
    ⟨0, [], []⟩ period map

/-- Comparator used by `format_patterns` when a canonical `order` list is
given: position in the order list ascending, known labels before unknown,
unknown ties by count descending.  `r a b` holds when the source comparator
does not answer `Greater`. -/
def orderRel (order : List (List Char)) (a b : TimePattern) : Bool :=
  match order.findIdx? (· = a.period), order.findIdx? (· = b.period) with
  | some ai, some bi => decide (ai ≤ bi)
  | some _, none => true
  | none, some _ => false
  | none, none => decide (b.count ≤ a.count)

/-- Bucket map to sorted output (`format_patterns` in `time_patterns.rs`). -/
def format_patterns (map : List (List Char × PatternData))
    (order : List (List Char)) : List TimePattern :=
  let patterns := map.map (fun e =>
    let data := e.2
    let average_intensity :=
      if data.intensities = [] then none
      else some (data.intensities.sum / (data.intensities.length : ℚ))
    let top_emotions :=
      ((data.emotions.map (fun em => EmotionCount.mk em.1 em.2.1 em.2.2)).insertionSort
        (fun a b => b.count ≤ a.count)).take 5
    TimePattern.mk e.1 data.count average_intensity top_emotions)
  if order = [] then
    patterns.insertionSort (fun a b => b.count ≤ a.count)
  else
    patterns.insertionSort (fun a b => orderRel order a b = true)

/-- Main loop of `compute_time_patterns`: records with unparseable timestamps
are skipped, the rest update the three bucket maps.  The weekday lookup
`DAY_NAMES[timestamp.weekday() as usize]` is embedded with `getD`; theorem
`calculate_weekday_lt_seven` below shows the index is always < 7, so the
default is dead code and the source lookup cannot panic. -/
def tpLoop :
    List Reflection →
    List (List Char × PatternData) × List (List Char × PatternData) ×
      List (List Char × PatternData) →
    List (List Char × PatternData) × List (List Char × PatternData) ×
      List (List Char × PatternData)
  | [], acc => acc
  | r :: rs, (dw, td, mo) =>
    match parse_timestamp r.timestamp with
    | none => tpLoop rs (dw, td, mo)
    | some ts =>
      let day_of_week := DAY_NAMES.getD ts.weekday []
      let hour := ts.hour
      let time_of_day :=
        if 5 ≤ hour ∧ hour < 12 then "morning".toList
        else if 12 ≤ hour ∧ hour < 17 then "afternoon".toList
        else if 17 ≤ hour ∧ hour < 22 then "evening".toList
        else "night".toList
      let month := fmtInt 4 ts.year ++ '-' :: fmtNat 2 ts.month
      let eid := r.emotion_id.getD ("unknown".toList)
      let ename := r.emotion_name.getD ("Unknown".toList)
      tpLoop rs
        (update_pattern_data dw day_of_week eid ename r.intensity,
         update_pattern_data td time_of_day eid ename r.intensity,
         update_pattern_data mo month eid ename r.intensity)

/-- Time-pattern aggregator (`compute_time_patterns` in `time_patterns.rs`). -/
def compute_time_patterns (reflections : List Reflection) : TimePatternsResult :=
  let acc := tpLoop reflections ([], [], [])
  ⟨format_patterns acc.1 DAY_NAMES,
   format_patterns acc.2.1 TIME_OF_DAY_NAMES,
   format_patterns acc.2.2 []⟩

end TimePatterns

/-- Emitted co-occurrence entry (`CoOccurrence` in `lib.rs`). -/
structure CoOccurrence where
  emotion_pair : List Char × List Char
  count : Nat
  percentage : ℚ
  deriving DecidableEq, Repr

/-- Per-record emotion list of the co-occurrence computer: the primary
`emotionId` (if present) followed by all `relatedEmotions` (if present). -/
def emotionsOfRecord (r : Reflection) : List (List Char) :=
  (match r.emotion_id with
    | some e => [e]
    | none => []) ++ r.related_emotions.getD []

/-- All position pairs `i < j` of a list, in the nested-loop order of the
source (`for i in 0..len { for j in (i+1)..len { .. } }`). -/
def allPairs {α : Type} : List α → List (α × α)
  | [] => []
  | x :: xs => xs.map (fun y => (x, y)) ++ allPairs xs

/-- Rust `pair.sort()` on the two-element array: lexicographically ascending. -/
def sortPair (p : List Char × List Char) : List Char × List Char :=
  if chLe p.1 p.2 then p else (p.2, p.1)

/-- Map key `format!("{}-{}", pair[0], pair[1])` of the sorted pair. -/
def pairKey (p : List Char × List Char) : List Char :=
  (sortPair p).1 ++ '-' :: (sortPair p).2

/-- Bump the tally for one pair key (`*map.entry(key).or_insert(0) += 1`). -/
def addPairKey (m : List (List Char × Nat)) (k : List Char) :
    List (List Char × Nat) :=
  bumpAssoc (· + 1) 0 k m

/-- Pair keys generated by one record, in source loop order. -/
def recordKeys (r : Reflection) : List (List Char) :=
  (allPairs (emotionsOfRecord r)).map pairKey

/-- Co-occurrence computer (`compute_co_occurrence` in `co_occurrence.rs`). -/
def compute_co_occurrence (reflections : List Reflection) : List CoOccurrence :=
  let total := reflections.length
  let map := reflections.foldl (fun m r => (recordKeys r).foldl addPairKey m) []
  let result := map.map (fun e =>
    let emotion_pair :=
      match splitChar '-' e.1 with
      | [a, b] => (a, b)
      | _ => ("unknown".toList, "unknown".toList)
    CoOccurrence.mk emotion_pair e.2
      (if 0 < total then (e.2 : ℚ) / (total : ℚ) * 100 else 0))
  (result.insertionSort (fun a b => b.count ≤ a.count)).take 20

/-- Statistics result (`StatisticsResult` in `statistics.rs`); `f64` values are
modelled as exact rationals. -/
structure StatisticsResult where
  mean : ℚ
  median : ℚ
  min : ℚ
  max : ℚ
  percentiles : List (List Char × ℚ)
  deriving DecidableEq, Repr

/-- Rust `f64::round`: round half away from zero. -/
def rustRound (q : ℚ) : Int :=
  if 0 ≤ q then ⌊q + 1 / 2⌋ else -⌊-q + 1 / 2⌋

/-- The seven fixed percentile ranks (`percentiles_to_calc`). -/
def percentiles_to_calc : List Nat := [10, 25, 50, 75, 90, 95, 99]

/-- Statistics computer (`compute_statistics` in `statistics.rs`).  The sort
comparator `partial_cmp(..).unwrap_or(Equal)` is the usual total order on the
exact-rational model of finite `f64` data; the `as usize` cast of the rounded
index saturates at 0 for negatives (the argument is never negative here).
The `sum`, the division by the length, and the even-length median midpoint
are modelled in exact rational arithmetic: the source's `f64` additions and
divisions round, so `mean` here is the exact mean, not the `f64` one (see
`fl64` and `statistics_mean_exceeds_max` for the rounded behaviour). -/
def compute_statistics (values : List ℚ) : StatisticsResult :=
  if values = [] then ⟨0, 0, 0, 0, []⟩
  else
    let sorted := values.insertionSort (· ≤ ·)
    let n := values.length
    let mean := values.sum / (n : ℚ)
    let minV := sorted.headD 0
    let maxV := sorted.getLastD 0
    let median :=
      if n % 2 = 0 then (sorted.getD (n / 2 - 1) 0 + sorted.getD (n / 2) 0) / 2
      else sorted.getD (n / 2) 0
    let percentiles := percentiles_to_calc.map (fun (p : Nat) =>
      let index := (rustRound ((p : ℚ) / 100 * ((n : ℚ) - 1))).toNat
      ('p' :: natChars p, sorted.getD (Nat.min index (n - 1)) 0))
    ⟨mean, median, minV, maxV, percentiles⟩

/-- Failure condition of the timestamp parser exactly as the specification
enumerates it (claim C5): no `'T'` separator, date segment not exactly 3
numeric parts, time segment fewer than 2 parts, or a numeric parse of an
extracted field (year/month/day/hour/minute) failing — reading "the date
segment" as everything before the first `'T'` and "the time segment" as
everything after it. -/
def specParseFails (ts : List Char) : Bool :=
  if ts.contains 'T' = false then true
  else
    let dateSeg := ts.takeWhile (· ≠ 'T')
    let timeSeg := (ts.dropWhile (· ≠ 'T')).drop 1
    match splitChar '-' dateSeg with
    | [ys, ms, ds] =>
      if (parseI32 ys).isNone || (parseU32 ms).isNone || (parseU32 ds).isNone then
        true
      else
        match splitChar ':' (trimEndZ timeSeg) with
        | hs :: mins :: _ => (parseU32 hs).isNone || (parseU32 mins).isNone
        | _ => true
    | _ => true

/-- Failure condition with the first disjunct amended: the parser fails when
the string does not split on `'T'` into exactly two segments (no `'T'`, or
more than one); the remaining conditions are as the specification words
them. -/
def specParseFailsAmended (ts : List Char) : Bool :=
  match splitChar 'T' ts with
  | [dateSeg, timeSeg] =>
    match splitChar '-' dateSeg with
    | [ys, ms, ds] =>
      if (parseI32 ys).isNone || (parseU32 ms).isNone || (parseU32 ds).isNone then
        true
      else
        match splitChar ':' (trimEndZ timeSeg) with
        | hs :: mins :: _ => (parseU32 hs).isNone || (parseU32 mins).isNone
        | _ => true
    | _ => true
  | _ => true
/-- Sum of the per-bucket counts of a pattern accumulator map. -/
def bucketCountSum (m : List (List Char × TimePatterns.PatternData)) : Nat :=
  (m.map (fun e => e.2.count)).sum

/-- Sum of `count` over a list of output buckets. -/
def patternCountSum (l : List TimePatterns.TimePattern) : Nat :=
  (l.map (fun tp => tp.count)).sum

/-- Number of input records whose timestamp parses. -/
def parseableCount (rs : List Reflection) : Nat :=
  (rs.filter (fun r => (TimePatterns.parse_timestamp r.timestamp).isSome)).length
/-- Nearest-rank percentile as the specification words it: sort ascending,
index = round(p/100 * (n-1)) clamped to n-1, value = sorted[index]. -/
def nearestRank (vs : List ℚ) (p : Nat) : ℚ :=
  (vs.insertionSort (· ≤ ·)).getD
    (Nat.min (rustRound ((p : ℚ) / 100 * ((vs.length : ℚ) - 1))).toNat
      (vs.length - 1)) 0

/-- Percentile value at position `i` of the emitted percentile list
(positions 0..6 are p10, p25, p50, p75, p90, p95, p99). -/
def pctl (vs : List ℚ) (i : Nat) : ℚ :=
  ((compute_statistics vs).percentiles.getD i ([], 0)).2
/-- Number of position pairs `i < j` across all records' per-record emotion
lists that yield the given sorted identifier pair (the specification's pair
count). -/
def pairOccurrences (rs : List Reflection) (q : List Char × List Char) : Nat :=
  (rs.map (fun r =>
    ((allPairs (emotionsOfRecord r)).filter (fun pr => sortPair pr = q)).length)).sum

/-- Total tally stored under key `k` in a counter association list (summing
duplicates, though the builder below never creates any). -/
def mval (m : List (List Char × Nat)) (k : List Char) : Nat :=
  (m.map (fun e => if e.1 = k then e.2 else 0)).sum

/-- The single-record example from the specification: primary `joy`, one
related `excitement`. -/
def joyReflection : Reflection :=
  { timestamp := "2024-01-15T10:00:00Z".toList
    emotion_id := some ("joy".toList)
    emotion_name := some ("Joy".toList)
    intensity := some 7
    related_emotions := some ["excitement".toList] }

/-- Round a rational to the nearest integer with ties to even, the IEEE-754
default rounding of a scaled significand. -/
def roundHalfEven (q : ℚ) : Int :=
  if q - ⌊q⌋ < 1 / 2 then ⌊q⌋
  else if 1 / 2 < q - ⌊q⌋ then ⌊q⌋ + 1
  else if ⌊q⌋ % 2 = 0 then ⌊q⌋ else ⌊q⌋ + 1

/-- Correctly rounded binary64 (Rust `f64`) value of a positive rational whose
binade exponent is `e` (that is, `2 ^ e ≤ value < 2 ^ (e + 1)`): the
significand has 52 fractional bits, so representable values in that binade are
the multiples of `2 ^ (e - 52)`, and IEEE-754 rounds to the nearest one with
ties to even.  This models one `f64` operation whose exact result lies in the
given binade (the bracketing is stated and proved wherever `fl64` is used). -/
def fl64 (e : Int) (q : ℚ) : ℚ :=
  (roundHalfEven (q / 2 ^ (e - 52)) : ℚ) * 2 ^ (e - 52)

/-- The binary64 value denoted by Rust's `0.1_f64` literal (the double nearest
one tenth): 3602879701896397 · 2⁻⁵⁵. -/
def f64OneTenth : ℚ := 3602879701896397 / 2 ^ 55

/-- The `f64` evaluation of `[0.1, 0.1, 0.1].iter().sum::<f64>() / 3.0` in
`compute_statistics`: the left-to-right additions (0 + 0.1 and 0.1 + 0.1 are
exact; 0.2 + 0.1 rounds in the binade [2⁻², 2⁻¹)) followed by the division by
3.0 (rounds in the binade [2⁻⁴, 2⁻³)). -/
def f64MeanOfThreeTenths : ℚ :=
  fl64 (-4) (fl64 (-2) (fl64 (-3) (f64OneTenth + f64OneTenth) + f64OneTenth) / 3)

/-- Truncated remainder by 7 lies strictly between -7 and 7. -/
theorem tmod_seven_bounds (a : Int) : -7 < Int.tmod a 7 ∧ Int.tmod a 7 < 7 := by
  refine ⟨?_, Int.tmod_lt_of_pos a (by omega)⟩
  cases a with
  | ofNat m =>
    have h := Int.tmod_nonneg (a := Int.ofNat m) 7 (Int.ofNat_nonneg m)
    omega
  | negSucc m =>
    have hm : (m + 1) % 7 < 7 := Nat.mod_lt _ (by omega)
    have hdef : Int.tmod (Int.negSucc m) 7 = -(((m + 1) % 7 : Nat) : Int) := rfl
    omega

/-- The final remap of the `time_patterns.rs` Zeller implementation lands in
`0..7` for every possible intermediate value. -/
theorem weekday_remap_lt (e : Int) : u32ofI32 (Int.tmod (Int.tmod e 7 + 6) 7) < 7 := by
  obtain ⟨hlo, hhi⟩ := tmod_seven_bounds e
  have h6 : 0 ≤ Int.tmod e 7 + 6 := by omega
  have heq : Int.tmod (Int.tmod e 7 + 6) 7 = (Int.tmod e 7 + 6) % 7 :=
    Int.tmod_eq_emod h6 (by omega)
  have hnn : 0 ≤ (Int.tmod e 7 + 6) % 7 := Int.emod_nonneg _ (by omega)
  have hlt : (Int.tmod e 7 + 6) % 7 < 7 := Int.emod_lt_of_pos _ (by omega)
  unfold u32ofI32
  rw [heq]
  omega

/-- C10: for every year (any integer) and every `u32` month and day — hence
for every parseable timestamp — the weekday computed by `calculate_weekday` in
`time_patterns.rs` is in `0..=6`, so the `DAY_NAMES[weekday]` lookup in
`compute_time_patterns` is in bounds and never panics. -/
theorem timePatterns_weekday_in_range (year : Int) (month day : Nat) :
    TimePatterns.calculate_weekday year month day < 7 ∧
    (TimePatterns.DAY_NAMES.get? (TimePatterns.calculate_weekday year month day)).isSome
      = true := by
  have h : TimePatterns.calculate_weekday year month day < 7 := by
    unfold TimePatterns.calculate_weekday
    exact weekday_remap_lt _
  refine ⟨h, ?_⟩
  have hlen : TimePatterns.DAY_NAMES.length = 7 := by rfl
  rw [List.get?_eq_getElem?, Option.isSome_iff_ne_none]
  intro hnone
  rw [List.getElem?_eq_none_iff] at hnone
  omega

/-- C2: the two supposedly identical `calculate_weekday` implementations
disagree: on January 15 2024 the `time_patterns.rs` version returns 1 (Monday,
correct) while the `trends.rs` version returns 0, and the two `parse_timestamp`
duplicates therefore produce different weekday fields for the same string. -/
theorem weekday_duplicates_disagree :
    TimePatterns.calculate_weekday 2024 1 15 = 1 ∧
    Trends.calculate_weekday 2024 1 15 = 0 ∧
    TimePatterns.parse_timestamp ("2024-01-15T10:00:00Z".toList) =
      some ⟨2024, 1, 15, 10, 0, 1⟩ ∧
    Trends.parse_timestamp ("2024-01-15T10:00:00Z".toList) =
      some ⟨2024, 1, 15, 10, 0, 0⟩ := by decide

/-- C1: `compute_trends` is not total: the timestamp `2024-00-10T10:00:00Z`
parses (month 0 propagates, as the contract requires), but `get_week_key` then
panics on `month - 1` (u32 underflow; in release mode the wrapped loop bound
makes `days_in_month[12]` go out of bounds).  Month 13 is tolerated. -/
theorem compute_trends_panics_on_month_zero :
    (Trends.parse_timestamp ("2024-00-10T10:00:00Z".toList)).isSome = true ∧
    Trends.get_week_key 2024 0 10 = none ∧
    (Trends.get_week_key 2024 13 1).isSome = true ∧
    Trends.compute_trends [{ timestamp := "2024-00-10T10:00:00Z".toList }] =
      none := by decide

/-- C8: the day-of-week bucketing uses Zeller's congruence remapped to
0 = Sunday: `calculate_weekday(2024,1,15)` is 1 (Monday), and a record
timestamped `2024-01-15T10:00:00Z` lands in the `"monday"` bucket of the
`dayOfWeek` dimension. -/
theorem weekday_monday_bucketing :
    TimePatterns.calculate_weekday 2024 1 15 = 1 ∧
    ((TimePatterns.compute_time_patterns
      [{ timestamp := "2024-01-15T10:00:00Z".toList,
         emotion_id := some ("joy".toList),
         emotion_name := some ("Joy".toList) }]).day_of_week).map
      (fun tp => (tp.period, tp.count)) = [("monday".toList, 1)] := by decide

/-- Helper: two options that can not both be `some` include a `none`. -/
theorem optNone2 {α β : Type} {o1 : Option α} {o2 : Option β}
    (h : ∀ a b, o1 = some a → o2 = some b → False) :
    o1 = none ∨ o2 = none := by
  cases o1 <;> cases o2 <;> simp_all

/-- C5 counterexample: the string `2024-01-15T10:30:00TZ` contains a second
`'T'`, so both parsers fail on it, yet none of the spec-enumerated failure
conditions holds (it has a `'T'` separator, the date segment has 3 numeric
parts, the time segment has ≥ 2 parts, and year/month/day/hour/minute all
parse). -/
theorem parse_timestamp_failure_counterexample :
    TimePatterns.parse_timestamp ("2024-01-15T10:30:00TZ".toList) = none ∧
    Trends.parse_timestamp ("2024-01-15T10:30:00TZ".toList) = none ∧
    specParseFails ("2024-01-15T10:30:00TZ".toList) = false := by decide

/-- C5 amended: each duplicated parser returns no result exactly when the
string does not split on `'T'` into exactly two segments, or the date segment
does not split into exactly 3 numeric parts, or the time segment has fewer
than 2 `:`-separated parts, or a numeric parse of year, month, day, hour or
minute fails. -/
theorem parse_timestamp_failure_conditions (ts : List Char) :
    (TimePatterns.parse_timestamp ts = none ↔ specParseFailsAmended ts = true) ∧
    (Trends.parse_timestamp ts = none ↔ specParseFailsAmended ts = true) := by
  have h1 : (TimePatterns.parse_timestamp ts).isNone = specParseFailsAmended ts := by
    unfold TimePatterns.parse_timestamp specParseFailsAmended
    repeat' split
    all_goals try simp_all
    all_goals
      first
        | (rename_i hno; exact optNone2 fun a b ha hb => hno a b ha hb)
        | (rename_i hno hnn _
           obtain ⟨⟨hy, hm⟩, hd⟩ := hnn
           obtain ⟨y, hy2⟩ := Option.ne_none_iff_exists'.mp hy
           obtain ⟨m, hm2⟩ := Option.ne_none_iff_exists'.mp hm
           obtain ⟨d, hd2⟩ := Option.ne_none_iff_exists'.mp hd
           exact absurd hd2 (hno y m d hy2 hm2))
  have h2 : (Trends.parse_timestamp ts).isNone = specParseFailsAmended ts := by
    unfold Trends.parse_timestamp specParseFailsAmended
    repeat' split
    all_goals try simp_all
    all_goals
      first
        | (rename_i hno; exact optNone2 fun a b ha hb => hno a b ha hb)
        | (rename_i hno hnn _
           obtain ⟨⟨hy, hm⟩, hd⟩ := hnn
           obtain ⟨y, hy2⟩ := Option.ne_none_iff_exists'.mp hy
           obtain ⟨m, hm2⟩ := Option.ne_none_iff_exists'.mp hm
           obtain ⟨d, hd2⟩ := Option.ne_none_iff_exists'.mp hd
           exact absurd hd2 (hno y m d hy2 hm2))
  constructor
  · rw [← h1, Option.isNone_iff_eq_none]
  · rw [← h2, Option.isNone_iff_eq_none]

/-- C9 counterexample: for `day = 4294967295` (a parseable `u32` day) in
December 2023 the code's `u32` day-of-year wraps modulo 2^32, giving week 48,
while the specification's exact day-of-year formula gives week 613566805, so
the produced key differs from the spec's `YYYY-Www` value. -/
theorem get_week_key_wrap_counterexample :
    Trends.get_week_key 2023 12 4294967295 = some ("2023-W48".toList) ∧
    weekKeySpec 2023 12 4294967295 = "2023-W613566805".toList ∧
    Trends.get_week_key 2023 12 4294967295 ≠
      some (weekKeySpec 2023 12 4294967295) := by decide

/-- C9 amended: for every year and month in 1..12, `get_week_key` produces
`YYYY-Www` where the week number is `ceil(day-of-year / 7)` with day-of-year
computed from the fixed 365-day month-length table (plus 1 after February in a
leap year, leap years being those divisible by 4 and (not divisible by 100, or
divisible by 400)) — the day-of-year being reduced modulo 2^32 as the `u32`
arithmetic of the source does. -/
theorem get_week_key_follows_spec (year : Int) (month day : Nat)
    (h1 : 1 ≤ month) (h2 : month ≤ 12) :
    Trends.get_week_key year month day = some (weekKeySpecU32 year month day) := by
  unfold Trends.get_week_key weekKeySpecU32 dayOfYearSpec
  have hm0 : ¬month = 0 := by omega
  have hm14 : ¬14 ≤ month := by omega
  rw [if_neg hm0, if_neg hm14]
  have hleap : ((Int.tmod year 4 = 0 ∧ Int.tmod year 100 ≠ 0) ∨
      Int.tmod year 400 = 0) ↔ leapYearSpec year := by
    unfold leapYearSpec
    rw [Int.dvd_iff_tmod_eq_zero, Int.dvd_iff_tmod_eq_zero,
      Int.dvd_iff_tmod_eq_zero]
  simp only [hleap]
  by_cases hc : leapYearSpec year ∧ 2 < month
  · rw [if_pos hc, if_pos hc, Nat.mod_add_mod]
  · rw [if_neg hc, if_neg hc]
    norm_num

/-- Witness for `get_week_key_follows_spec` at January 15 2024. -/
theorem get_week_key_follows_spec_witness :
    1 ≤ 1 ∧ (1 : Nat) ≤ 12 ∧
    Trends.get_week_key 2024 1 15 = some (weekKeySpecU32 2024 1 15) :=
  ⟨by decide, by decide, get_week_key_follows_spec 2024 1 15 (by decide) (by decide)⟩

/-- Bumping one entry of an association list raises the total of a measure
that the update increments by one. -/
theorem sum_map_bumpAssoc {α β : Type} [DecidableEq α] (g : β → Nat) (f : β → β)
    (init : β) (k : α) (m : List (α × β)) (hf : ∀ b, g (f b) = g b + 1)
    (hi : g init = 0) :
    ((bumpAssoc f init k m).map (fun e => g e.2)).sum =
      ((m.map (fun e => g e.2)).sum) + 1 := by
  induction m with
  | nil => simp [bumpAssoc, hf, hi]
  | cons e rest ih =>
    obtain ⟨k', v⟩ := e
    by_cases hk : k' = k
    · simp only [bumpAssoc, if_pos hk, List.map_cons, List.sum_cons, hf]
      omega
    · simp only [bumpAssoc, if_neg hk, List.map_cons, List.sum_cons, ih]
      omega

/-- A pattern-map update adds exactly one to the total bucket count. -/
theorem bucketCountSum_update (m : List (List Char × TimePatterns.PatternData))
    (p eid en : List Char) (i : Option ℚ) :
    bucketCountSum (TimePatterns.update_pattern_data m p eid en i) =
      bucketCountSum m + 1 := by
  unfold bucketCountSum TimePatterns.update_pattern_data
  exact sum_map_bumpAssoc _ _ _ _ _ (fun b => rfl) rfl

/-- The main loop adds the number of parseable records to each of the three
accumulator totals. -/
theorem tpLoop_count (rs : List Reflection) :
    ∀ dw td mo,
      bucketCountSum (TimePatterns.tpLoop rs (dw, td, mo)).1 =
          bucketCountSum dw + parseableCount rs ∧
      bucketCountSum (TimePatterns.tpLoop rs (dw, td, mo)).2.1 =
          bucketCountSum td + parseableCount rs ∧
      bucketCountSum (TimePatterns.tpLoop rs (dw, td, mo)).2.2 =
          bucketCountSum mo + parseableCount rs := by
  induction rs with
  | nil => intro dw td mo; simp [TimePatterns.tpLoop, parseableCount]
  | cons r rest ih =>
    intro dw td mo
    cases hp : TimePatterns.parse_timestamp r.timestamp with
    | none =>
      have hstep : TimePatterns.tpLoop (r :: rest) (dw, td, mo) =
          TimePatterns.tpLoop rest (dw, td, mo) := by
        conv_lhs => rw [TimePatterns.tpLoop, hp]
      have hcnt : parseableCount (r :: rest) = parseableCount rest := by
        unfold parseableCount
        rw [List.filter_cons]
        simp [hp]
      rw [hstep, hcnt]
      exact ih dw td mo
    | some ts =>
      have hstep : TimePatterns.tpLoop (r :: rest) (dw, td, mo) =
          TimePatterns.tpLoop rest
            (TimePatterns.update_pattern_data dw
              (TimePatterns.DAY_NAMES.getD ts.weekday [])
              (r.emotion_id.getD ("unknown".toList))
              (r.emotion_name.getD ("Unknown".toList)) r.intensity,
             TimePatterns.update_pattern_data td
              (if 5 ≤ ts.hour ∧ ts.hour < 12 then "morning".toList
               else if 12 ≤ ts.hour ∧ ts.hour < 17 then "afternoon".toList
               else if 17 ≤ ts.hour ∧ ts.hour < 22 then "evening".toList
               else "night".toList)
              (r.emotion_id.getD ("unknown".toList))
              (r.emotion_name.getD ("Unknown".toList)) r.intensity,
             TimePatterns.update_pattern_data mo
              (fmtInt 4 ts.year ++ '-' :: fmtNat 2 ts.month)
              (r.emotion_id.getD ("unknown".toList))
              (r.emotion_name.getD ("Unknown".toList)) r.intensity) := by
        conv_lhs => rw [TimePatterns.tpLoop, hp]
      have hcnt : parseableCount (r :: rest) = parseableCount rest + 1 := by
        unfold parseableCount
        rw [List.filter_cons]
        simp [hp]
      rw [hstep, hcnt]
      obtain ⟨i1, i2, i3⟩ := ih
        (TimePatterns.update_pattern_data dw
          (TimePatterns.DAY_NAMES.getD ts.weekday [])
          (r.emotion_id.getD ("unknown".toList))
          (r.emotion_name.getD ("Unknown".toList)) r.intensity)
        (TimePatterns.update_pattern_data td
          (if 5 ≤ ts.hour ∧ ts.hour < 12 then "morning".toList
           else if 12 ≤ ts.hour ∧ ts.hour < 17 then "afternoon".toList
           else if 17 ≤ ts.hour ∧ ts.hour < 22 then "evening".toList
           else "night".toList)
          (r.emotion_id.getD ("unknown".toList))
          (r.emotion_name.getD ("Unknown".toList)) r.intensity)
        (TimePatterns.update_pattern_data mo
          (fmtInt 4 ts.year ++ '-' :: fmtNat 2 ts.month)
          (r.emotion_id.getD ("unknown".toList))
          (r.emotion_name.getD ("Unknown".toList)) r.intensity)
      refine ⟨?_, ?_, ?_⟩
      · rw [i1, bucketCountSum_update]; omega
      · rw [i2, bucketCountSum_update]; omega
      · rw [i3, bucketCountSum_update]; omega

/-- Formatting a bucket map preserves the total count. -/
theorem patternCountSum_format (m : List (List Char × TimePatterns.PatternData))
    (order : List (List Char)) :
    patternCountSum (TimePatterns.format_patterns m order) = bucketCountSum m := by
  unfold patternCountSum TimePatterns.format_patterns bucketCountSum
  have hsort : ∀ (r : TimePatterns.TimePattern → TimePatterns.TimePattern → Prop)
      (_ : DecidableRel r) (l : List TimePatterns.TimePattern),
      ((l.insertionSort r).map (fun tp => tp.count)).sum =
        (l.map (fun tp => tp.count)).sum := by
    intro r hr l
    exact ((List.perm_insertionSort r l).map _).sum_eq
  split <;> rw [hsort] <;> simp only [List.map_map] <;> rfl

/-- C4: for every list of reflections, each of the three time-pattern
dimensions (dayOfWeek, timeOfDay, month) sums its bucket counts to the number
of records with a parseable timestamp; unparseable records contribute to no
bucket. -/
theorem time_patterns_counts_sum (rs : List Reflection) :
    patternCountSum (TimePatterns.compute_time_patterns rs).day_of_week =
        parseableCount rs ∧
    patternCountSum (TimePatterns.compute_time_patterns rs).time_of_day =
        parseableCount rs ∧
    patternCountSum (TimePatterns.compute_time_patterns rs).month =
        parseableCount rs := by
  obtain ⟨h1, h2, h3⟩ := tpLoop_count rs [] [] []
  unfold TimePatterns.compute_time_patterns
  refine ⟨?_, ?_, ?_⟩ <;> simp only [patternCountSum_format]
  · rw [h1]; simp [bucketCountSum]
  · rw [h2]; simp [bucketCountSum]
  · rw [h3]; simp [bucketCountSum]

/-- Explicit form of `compute_statistics` on non-empty input. -/
theorem compute_statistics_eq (vs : List ℚ) (hvs : vs ≠ []) :
    compute_statistics vs =
      ⟨vs.sum / (vs.length : ℚ),
       (if vs.length % 2 = 0 then
          ((vs.insertionSort (· ≤ ·)).getD (vs.length / 2 - 1) 0 +
            (vs.insertionSort (· ≤ ·)).getD (vs.length / 2) 0) / 2
        else (vs.insertionSort (· ≤ ·)).getD (vs.length / 2) 0),
       (vs.insertionSort (· ≤ ·)).headD 0,
       (vs.insertionSort (· ≤ ·)).getLastD 0,
       percentiles_to_calc.map (fun p =>
         ('p' :: natChars p,
          (vs.insertionSort (· ≤ ·)).getD
            (Nat.min (rustRound ((p : ℚ) / 100 * ((vs.length : ℚ) - 1))).toNat
              (vs.length - 1)) 0))⟩ := by
  unfold compute_statistics
  rw [if_neg hvs]

/-- The default head of a non-empty list is its entry at index 0. -/
theorem headD_eq_getD_zero {α : Type} (l : List α) (d : α) (h : l ≠ []) :
    l.headD d = l.getD 0 d := by
  cases l with
  | nil => exact absurd rfl h
  | cons a t => rfl

/-- The default last entry of a non-empty list is its entry at the final
index. -/
theorem getLastD_eq_getD {α : Type} (l : List α) (d : α) (h : l ≠ []) :
    l.getLastD d = l.getD (l.length - 1) d := by
  induction l with
  | nil => exact absurd rfl h
  | cons a t ih =>
    cases t with
    | nil => rfl
    | cons b t2 =>
      have h2 : (b :: t2 : List α) ≠ [] := by simp
      calc (a :: b :: t2).getLastD d = (b :: t2).getLastD d := by
            simp [List.getLastD_eq_getLast?]
        _ = (b :: t2).getD ((b :: t2).length - 1) d := ih h2
        _ = (a :: b :: t2).getD ((a :: b :: t2).length - 1) d := by
            simp [List.getD_cons_succ]

/-- Entries of an ascending-sorted rational list are monotone in the index. -/
theorem sorted_getD_le_getD {l : List ℚ} (hs : l.Sorted (· ≤ ·)) {i j : Nat}
    (hij : i ≤ j) (hj : j < l.length) : l.getD i 0 ≤ l.getD j 0 := by
  have hi : i < l.length := lt_of_le_of_lt hij hj
  have hg := hs.rel_get_of_le (a := ⟨i, hi⟩) (b := ⟨j, hj⟩) hij
  simpa [List.getD_eq_getElem?_getD, List.getElem?_eq_getElem, hi, hj] using hg

/-- Rounding half away from zero is monotone on nonnegative arguments. -/
theorem rustRound_nonneg_mono {a b : ℚ} (ha : 0 ≤ a) (hab : a ≤ b) :
    rustRound a ≤ rustRound b := by
  unfold rustRound
  rw [if_pos ha, if_pos (le_trans ha hab)]
  exact Int.floor_le_floor (by linarith)

/-- C6: for every non-empty array the percentile map has exactly the keys
p10, p25, p50, p75, p90, p95, p99, each valued by the nearest-rank rule
`sorted[round(p/100*(n-1))]` clamped to `n-1`; and on `[1,2,3,4,5]` the result
has mean 3, median 3, min 1, max 5 and p50 = 3. -/
theorem statistics_percentiles_spec :
    (∀ vs : List ℚ, vs ≠ [] →
      (compute_statistics vs).percentiles.map Prod.fst =
        ["p10".toList, "p25".toList, "p50".toList, "p75".toList,
         "p90".toList, "p95".toList, "p99".toList] ∧
      (compute_statistics vs).percentiles =
        percentiles_to_calc.map (fun p => ('p' :: natChars p, nearestRank vs p))) ∧
    ((compute_statistics [1, 2, 3, 4, 5]).mean = 3 ∧
     (compute_statistics [1, 2, 3, 4, 5]).median = 3 ∧
     (compute_statistics [1, 2, 3, 4, 5]).min = 1 ∧
     (compute_statistics [1, 2, 3, 4, 5]).max = 5 ∧
     pctl [1, 2, 3, 4, 5] 2 = 3) := by
  constructor
  · intro vs hvs
    rw [compute_statistics_eq vs hvs]
    exact ⟨rfl, rfl⟩
  · refine ⟨?_, by decide, by decide, by decide, ?_⟩
    · rw [compute_statistics_eq _ (by decide)]
      norm_num
    · unfold pctl
      rw [compute_statistics_eq _ (by decide)]
      have hidx : (rustRound
          (((50 : Nat) : ℚ) / 100 *
            ((([1, 2, 3, 4, 5] : List ℚ).length : ℚ) - 1))).toNat = 2 := by
        norm_num [rustRound]
        rfl
      dsimp only [percentiles_to_calc, List.map_cons, List.getD_cons_succ,
        List.getD_cons_zero]
      rw [hidx]
      decide

/-- Witness for `statistics_percentiles_spec` at the input `[1, 2, 3]`. -/
theorem statistics_percentiles_spec_witness :
    ([1, 2, 3] : List ℚ) ≠ [] ∧
    ((compute_statistics [1, 2, 3]).percentiles.map Prod.fst =
      ["p10".toList, "p25".toList, "p50".toList, "p75".toList,
       "p90".toList, "p95".toList, "p99".toList] ∧
     (compute_statistics [1, 2, 3]).percentiles =
       percentiles_to_calc.map
         (fun p => ('p' :: natChars p, nearestRank [1, 2, 3] p))) :=
  ⟨by decide, statistics_percentiles_spec.1 [1, 2, 3] (by decide)⟩

/-- Order chain over the exact-rational model: min ≤ p10 ≤ p25 ≤ median ≤
p75 ≤ p90 ≤ p95 ≤ p99 ≤ max and min ≤ mean ≤ max, where the mean and the
even-length median midpoint are the exact ones (the first conjunct fixes
which positional entry carries which percentile label).  The percentile
bounds are value selections from the sorted array and carry over to `f64`
data; the program's rounded `f64` mean does not — see
`statistics_mean_exceeds_max`. -/
theorem statistics_order_invariants (vs : List ℚ) (hvs : vs ≠ []) :
    (compute_statistics vs).percentiles.map Prod.fst =
      ["p10".toList, "p25".toList, "p50".toList, "p75".toList,
       "p90".toList, "p95".toList, "p99".toList] ∧
    (compute_statistics vs).min ≤ pctl vs 0 ∧
    pctl vs 0 ≤ pctl vs 1 ∧
    pctl vs 1 ≤ (compute_statistics vs).median ∧
    (compute_statistics vs).median ≤ pctl vs 3 ∧
    pctl vs 3 ≤ pctl vs 4 ∧
    pctl vs 4 ≤ pctl vs 5 ∧
    pctl vs 5 ≤ pctl vs 6 ∧
    pctl vs 6 ≤ (compute_statistics vs).max ∧
    (compute_statistics vs).min ≤ (compute_statistics vs).mean ∧
    (compute_statistics vs).mean ≤ (compute_statistics vs).max := by
  have hn : 1 ≤ vs.length := List.length_pos.mpr hvs
  have hsort : (vs.insertionSort (· ≤ ·)).Sorted (· ≤ ·) :=
    List.sorted_insertionSort (· ≤ ·) vs
  have hslen : (vs.insertionSort (· ≤ ·)).length = vs.length :=
    (List.perm_insertionSort (· ≤ ·) vs).length_eq
  have hsne : vs.insertionSort (· ≤ ·) ≠ [] := by
    intro hname
    rw [hname] at hslen
    simp at hslen
    omega
  have hcastn : (1 : ℚ) ≤ (vs.length : ℚ) := by exact_mod_cast hn
  have hq : ∀ p : Nat, (0 : ℚ) ≤ (p : ℚ) / 100 * ((vs.length : ℚ) - 1) := by
    intro p
    apply mul_nonneg (by positivity)
    linarith
  have hidx_lt : ∀ p : Nat,
      Nat.min (rustRound ((p : ℚ) / 100 * ((vs.length : ℚ) - 1))).toNat
        (vs.length - 1) < vs.length := by
    intro p
    have h1 : Nat.min
        (rustRound ((p : ℚ) / 100 * ((vs.length : ℚ) - 1))).toNat
        (vs.length - 1) ≤ vs.length - 1 := Nat.min_le_right _ _
    omega
  have hidx_mono : ∀ p q : Nat, p ≤ q →
      Nat.min (rustRound ((p : ℚ) / 100 * ((vs.length : ℚ) - 1))).toNat
        (vs.length - 1) ≤
      Nat.min (rustRound ((q : ℚ) / 100 * ((vs.length : ℚ) - 1))).toNat
        (vs.length - 1) := by
    intro p q hpq
    apply min_le_min _ le_rfl
    apply Int.toNat_le_toNat
    apply rustRound_nonneg_mono (hq p)
    apply mul_le_mul_of_nonneg_right _ (by linarith)
    apply div_le_div_of_nonneg_right ?_ (by norm_num)
    exact_mod_cast hpq
  have hpctl : ∀ i : Nat, ∀ p : Nat, percentiles_to_calc.getD i 0 = p → i < 7 →
      pctl vs i = (vs.insertionSort (· ≤ ·)).getD
        (Nat.min (rustRound ((p : ℚ) / 100 * ((vs.length : ℚ) - 1))).toNat
          (vs.length - 1)) 0 := by
    intro i p hip hi7
    unfold pctl
    rw [compute_statistics_eq vs hvs]
    interval_cases i <;>
      (simp only [percentiles_to_calc, List.getD_cons_zero, List.getD_cons_succ]
        at hip) <;>
      subst hip <;> rfl
  have h10 := hpctl 0 10 rfl (by omega)
  have h25 := hpctl 1 25 rfl (by omega)
  have h75 := hpctl 3 75 rfl (by omega)
  have h90 := hpctl 4 90 rfl (by omega)
  have h95 := hpctl 5 95 rfl (by omega)
  have h99 := hpctl 6 99 rfl (by omega)
  have hminmax : ∀ x ∈ vs,
      (vs.insertionSort (· ≤ ·)).getD 0 0 ≤ x ∧
      x ≤ (vs.insertionSort (· ≤ ·)).getD (vs.length - 1) 0 := by
    intro x hx
    have hx2 : x ∈ vs.insertionSort (· ≤ ·) := by
      rw [List.mem_insertionSort]
      exact hx
    obtain ⟨j, hj, hjx⟩ := List.getElem_of_mem hx2
    have hxj : x = (vs.insertionSort (· ≤ ·)).getD j 0 := by
      rw [List.getD_eq_getElem?_getD, List.getElem?_eq_getElem hj]
      simp [hjx]
    constructor
    · rw [hxj]
      exact sorted_getD_le_getD hsort (Nat.zero_le j) hj
    · rw [hxj]
      apply sorted_getD_le_getD hsort
      · omega
      · omega
  refine ⟨?_, ?_, ?_, ?_, ?_, ?_, ?_, ?_, ?_, ?_, ?_⟩
  · rw [compute_statistics_eq vs hvs]
    rfl
  · -- min ≤ p10
    rw [compute_statistics_eq vs hvs]
    show (vs.insertionSort (· ≤ ·)).headD 0 ≤ pctl vs 0
    rw [headD_eq_getD_zero _ _ hsne, h10]
    exact sorted_getD_le_getD hsort (Nat.zero_le _) (by rw [hslen]; exact hidx_lt 10)
  · -- p10 ≤ p25
    rw [h10, h25]
    exact sorted_getD_le_getD hsort (hidx_mono 10 25 (by omega))
      (by rw [hslen]; exact hidx_lt 25)
  · -- p25 ≤ median
    rw [compute_statistics_eq vs hvs, h25]
    show _ ≤ (if vs.length % 2 = 0 then _ else _)
    rcases Nat.even_or_odd vs.length with he | ho
    · obtain ⟨m, hm⟩ := he
      have hm2 : vs.length = 2 * m := by omega
      have hm1 : 1 ≤ m := by omega
      rw [if_pos (by omega)]
      have hi25 : Nat.min
          (rustRound (((25 : Nat) : ℚ) / 100 * ((vs.length : ℚ) - 1))).toNat
          (vs.length - 1) ≤ vs.length / 2 - 1 := by
        have harg : rustRound (((25 : Nat) : ℚ) / 100 * ((vs.length : ℚ) - 1)) =
            ⌊((25 : Nat) : ℚ) / 100 * ((vs.length : ℚ) - 1) + 1 / 2⌋ := by
          unfold rustRound
          rw [if_pos (hq 25)]
        have hfl : ⌊((25 : Nat) : ℚ) / 100 * ((vs.length : ℚ) - 1) + 1 / 2⌋ <
            (m : Int) := by
          rw [Int.floor_lt]
          have hc : (vs.length : ℚ) = 2 * (m : ℚ) := by exact_mod_cast hm2
          rw [hc]
          push_cast
          have hmq : (1 : ℚ) ≤ (m : ℚ) := by exact_mod_cast hm1
          linarith
        have h1 : (rustRound (((25 : Nat) : ℚ) / 100 * ((vs.length : ℚ) - 1))).toNat
            ≤ m - 1 := by
          rw [harg]
          rw [Int.toNat_le]
          omega
        exact le_trans (Nat.min_le_left _ _) (by omega)
      have hle1 : (vs.insertionSort (· ≤ ·)).getD
          (Nat.min (rustRound (((25 : Nat) : ℚ) / 100 * ((vs.length : ℚ) - 1))).toNat
            (vs.length - 1)) 0 ≤
          (vs.insertionSort (· ≤ ·)).getD (vs.length / 2 - 1) 0 := by
        apply sorted_getD_le_getD hsort hi25
        rw [hslen]
        omega
      have hle2 : (vs.insertionSort (· ≤ ·)).getD (vs.length / 2 - 1) 0 ≤
          (vs.insertionSort (· ≤ ·)).getD (vs.length / 2) 0 := by
        apply sorted_getD_le_getD hsort (by omega)
        rw [hslen]
        omega
      linarith
    · obtain ⟨m, hm⟩ := ho
      rw [if_neg (by omega)]
      apply sorted_getD_le_getD hsort _ (by rw [hslen]; omega)
      have harg : rustRound (((25 : Nat) : ℚ) / 100 * ((vs.length : ℚ) - 1)) =
          ⌊((25 : Nat) : ℚ) / 100 * ((vs.length : ℚ) - 1) + 1 / 2⌋ := by
        unfold rustRound
        rw [if_pos (hq 25)]
      have hfl : ⌊((25 : Nat) : ℚ) / 100 * ((vs.length : ℚ) - 1) + 1 / 2⌋ <
          (m : Int) + 1 := by
        rw [Int.floor_lt]
        have hc : (vs.length : ℚ) = 2 * (m : ℚ) + 1 := by exact_mod_cast hm
        rw [hc]
        push_cast
        have hmq : (0 : ℚ) ≤ (m : ℚ) := by positivity
        linarith
      have h1 : (rustRound (((25 : Nat) : ℚ) / 100 * ((vs.length : ℚ) - 1))).toNat
          ≤ m := by
        rw [harg, Int.toNat_le]
        omega
      exact le_trans (Nat.min_le_left _ _) (by omega)
  · -- median ≤ p75
    rw [compute_statistics_eq vs hvs, h75]
    show (if vs.length % 2 = 0 then _ else _) ≤ _
    have harg : rustRound (((75 : Nat) : ℚ) / 100 * ((vs.length : ℚ) - 1)) =
        ⌊((75 : Nat) : ℚ) / 100 * ((vs.length : ℚ) - 1) + 1 / 2⌋ := by
      unfold rustRound
      rw [if_pos (hq 75)]
    rcases Nat.even_or_odd vs.length with he | ho
    · obtain ⟨m, hm⟩ := he
      have hm2 : vs.length = 2 * m := by omega
      have hm1 : 1 ≤ m := by omega
      rw [if_pos (by omega)]
      have hfl : (m : Int) ≤
          ⌊((75 : Nat) : ℚ) / 100 * ((vs.length : ℚ) - 1) + 1 / 2⌋ := by
        rw [Int.le_floor]
        have hc : (vs.length : ℚ) = 2 * (m : ℚ) := by exact_mod_cast hm2
        rw [hc]
        push_cast
        have hmq : (1 : ℚ) ≤ (m : ℚ) := by exact_mod_cast hm1
        linarith
      have h1 : m ≤ (rustRound (((75 : Nat) : ℚ) / 100 * ((vs.length : ℚ) - 1))).toNat := by
        rw [harg]
        omega
      have hge : vs.length / 2 ≤ Nat.min
          (rustRound (((75 : Nat) : ℚ) / 100 * ((vs.length : ℚ) - 1))).toNat
          (vs.length - 1) := by
        apply Nat.le_min.mpr
        constructor
        · omega
        · omega
      have hle1 : (vs.insertionSort (· ≤ ·)).getD (vs.length / 2 - 1) 0 ≤
          (vs.insertionSort (· ≤ ·)).getD (vs.length / 2) 0 := by
        apply sorted_getD_le_getD hsort (by omega)
        rw [hslen]
        omega
      have hle2 : (vs.insertionSort (· ≤ ·)).getD (vs.length / 2) 0 ≤
          (vs.insertionSort (· ≤ ·)).getD
            (Nat.min (rustRound (((75 : Nat) : ℚ) / 100 * ((vs.length : ℚ) - 1))).toNat
              (vs.length - 1)) 0 := by
        apply sorted_getD_le_getD hsort hge
        rw [hslen]
        exact hidx_lt 75
      linarith
    · obtain ⟨m, hm⟩ := ho
      rw [if_neg (by omega)]
      apply sorted_getD_le_getD hsort _ (by rw [hslen]; exact hidx_lt 75)
      have hfl : (m : Int) ≤
          ⌊((75 : Nat) : ℚ) / 100 * ((vs.length : ℚ) - 1) + 1 / 2⌋ := by
        rw [Int.le_floor]
        have hc : (vs.length : ℚ) = 2 * (m : ℚ) + 1 := by exact_mod_cast hm
        rw [hc]
        push_cast
        have hmq : (0 : ℚ) ≤ (m : ℚ) := by positivity
        linarith
      have h1 : m ≤ (rustRound (((75 : Nat) : ℚ) / 100 * ((vs.length : ℚ) - 1))).toNat := by
        rw [harg]
        omega
      apply Nat.le_min.mpr
      constructor
      · omega
      · omega
  · -- p75 ≤ p90
    rw [h75, h90]
    exact sorted_getD_le_getD hsort (hidx_mono 75 90 (by omega))
      (by rw [hslen]; exact hidx_lt 90)
  · -- p90 ≤ p95
    rw [h90, h95]
    exact sorted_getD_le_getD hsort (hidx_mono 90 95 (by omega))
      (by rw [hslen]; exact hidx_lt 95)
  · -- p95 ≤ p99
    rw [h95, h99]
    exact sorted_getD_le_getD hsort (hidx_mono 95 99 (by omega))
      (by rw [hslen]; exact hidx_lt 99)
  · -- p99 ≤ max
    rw [compute_statistics_eq vs hvs, h99]
    show _ ≤ (vs.insertionSort (· ≤ ·)).getLastD 0
    rw [getLastD_eq_getD _ _ hsne, hslen]
    exact sorted_getD_le_getD hsort (by have := hidx_lt 99; omega)
      (by rw [hslen]; omega)
  · -- min ≤ mean
    rw [compute_statistics_eq vs hvs]
    show (vs.insertionSort (· ≤ ·)).headD 0 ≤ vs.sum / (vs.length : ℚ)
    rw [headD_eq_getD_zero _ _ hsne]
    rw [le_div_iff₀ (by positivity)]
    calc (vs.insertionSort (· ≤ ·)).getD 0 0 * (vs.length : ℚ)
        = (vs.length : ℚ) * (vs.insertionSort (· ≤ ·)).getD 0 0 := by ring
      _ = vs.length • (vs.insertionSort (· ≤ ·)).getD 0 0 := by
          rw [nsmul_eq_mul]
      _ ≤ vs.sum := List.card_nsmul_le_sum vs _ (fun x hx => (hminmax x hx).1)
  · -- mean ≤ max
    rw [compute_statistics_eq vs hvs]
    show vs.sum / (vs.length : ℚ) ≤ (vs.insertionSort (· ≤ ·)).getLastD 0
    rw [getLastD_eq_getD _ _ hsne, hslen]
    rw [div_le_iff₀ (by positivity)]
    calc vs.sum
        ≤ vs.length • (vs.insertionSort (· ≤ ·)).getD (vs.length - 1) 0 :=
          List.sum_le_card_nsmul vs _ (fun x hx => (hminmax x hx).2)
      _ = (vs.insertionSort (· ≤ ·)).getD (vs.length - 1) 0 * (vs.length : ℚ) := by
          rw [nsmul_eq_mul]; ring

/-- Instance of `statistics_order_invariants` at the input `[1, 2, 3]`. -/
theorem statistics_order_invariants_witness :
    ([1, 2, 3] : List ℚ) ≠ [] ∧
    ((compute_statistics [1, 2, 3]).percentiles.map Prod.fst =
      ["p10".toList, "p25".toList, "p50".toList, "p75".toList,
       "p90".toList, "p95".toList, "p99".toList] ∧
    (compute_statistics [1, 2, 3]).min ≤ pctl [1, 2, 3] 0 ∧
    pctl [1, 2, 3] 0 ≤ pctl [1, 2, 3] 1 ∧
    pctl [1, 2, 3] 1 ≤ (compute_statistics [1, 2, 3]).median ∧
    (compute_statistics [1, 2, 3]).median ≤ pctl [1, 2, 3] 3 ∧
    pctl [1, 2, 3] 3 ≤ pctl [1, 2, 3] 4 ∧
    pctl [1, 2, 3] 4 ≤ pctl [1, 2, 3] 5 ∧
    pctl [1, 2, 3] 5 ≤ pctl [1, 2, 3] 6 ∧
    pctl [1, 2, 3] 6 ≤ (compute_statistics [1, 2, 3]).max ∧
    (compute_statistics [1, 2, 3]).min ≤ (compute_statistics [1, 2, 3]).mean ∧
    (compute_statistics [1, 2, 3]).mean ≤ (compute_statistics [1, 2, 3]).max) :=
  ⟨by decide, statistics_order_invariants [1, 2, 3] (by decide)⟩

/-- C7: the claimed invariant `min <= mean <= max` fails on the real program.
For the input `[0.1, 0.1, 0.1]` the program's `f64` sum is
0.30000000000000004 (= 5404319552844596 · 2⁻⁵⁴, a round-to-even tie) and the
`f64` mean rounds up to 7205759403792795 · 2⁻⁵⁶ = 0.10000000000000002,
strictly above max = 0.1; the exact-arithmetic mean would equal max.  The
conjuncts validate each `fl64` binade bracketing (including that `0.1_f64`
itself is the correctly rounded one tenth) and evaluate the program's `min`
and `max` on this input before exhibiting `max < mean`. -/
theorem statistics_mean_exceeds_max :
    (compute_statistics [f64OneTenth, f64OneTenth, f64OneTenth]).min =
      f64OneTenth ∧
    (compute_statistics [f64OneTenth, f64OneTenth, f64OneTenth]).max =
      f64OneTenth ∧
    ((2 : ℚ) ^ (-4 : Int) ≤ 1 / 10 ∧ (1 : ℚ) / 10 < 2 ^ (-3 : Int)) ∧
    f64OneTenth = fl64 (-4) (1 / 10) ∧
    ((2 : ℚ) ^ (-3 : Int) ≤ f64OneTenth + f64OneTenth ∧
      f64OneTenth + f64OneTenth < 2 ^ (-2 : Int)) ∧
    fl64 (-3) (f64OneTenth + f64OneTenth) = f64OneTenth + f64OneTenth ∧
    ((2 : ℚ) ^ (-2 : Int) ≤ f64OneTenth + f64OneTenth + f64OneTenth ∧
      f64OneTenth + f64OneTenth + f64OneTenth < 2 ^ (-1 : Int)) ∧
    fl64 (-2) (f64OneTenth + f64OneTenth + f64OneTenth) =
      5404319552844596 / 2 ^ 54 ∧
    ((2 : ℚ) ^ (-4 : Int) ≤ 5404319552844596 / 2 ^ 54 / 3 ∧
      (5404319552844596 : ℚ) / 2 ^ 54 / 3 < 2 ^ (-3 : Int)) ∧
    f64MeanOfThreeTenths = 7205759403792795 / 2 ^ 56 ∧
    (compute_statistics [f64OneTenth, f64OneTenth, f64OneTenth]).max <
      f64MeanOfThreeTenths := by
  have hsorted : ([f64OneTenth, f64OneTenth, f64OneTenth] : List ℚ).insertionSort
      (· ≤ ·) = [f64OneTenth, f64OneTenth, f64OneTenth] := by
    norm_num [List.insertionSort, List.orderedInsert]
  have hmin : (compute_statistics [f64OneTenth, f64OneTenth, f64OneTenth]).min =
      f64OneTenth := by
    rw [compute_statistics_eq _ (by simp), hsorted]
    rfl
  have hmax : (compute_statistics [f64OneTenth, f64OneTenth, f64OneTenth]).max =
      f64OneTenth := by
    rw [compute_statistics_eq _ (by simp), hsorted]
    rfl
  refine ⟨hmin, hmax, ?_⟩
  rw [hmax]
  norm_num [fl64, roundHalfEven, f64OneTenth, f64MeanOfThreeTenths]

/-- Lexicographic `chLe` is total. -/
theorem chLe_total (a b : List Char) : chLe a b = true ∨ chLe b a = true := by
  induction a generalizing b with
  | nil => left; rfl
  | cons x xs ih =>
    cases b with
    | nil => right; rfl
    | cons y ys =>
      by_cases hxy : x = y
      · subst hxy
        rcases ih ys with h | h
        · left; simp [chLe, h]
        · right; simp [chLe, h]
      · rcases lt_or_gt_of_ne hxy with h | h
        · left; simp [chLe, hxy, h]
        · right
          have hyx : y ≠ x := fun hc => hxy hc.symm
          simp [chLe, hyx]
          exact h
  
/-- The two components of `sortPair` are in `chLe` order. -/
theorem chLe_sortPair (p : List Char × List Char) :
    chLe (sortPair p).1 (sortPair p).2 = true := by
  unfold sortPair
  by_cases h : chLe p.1 p.2 = true
  · rw [if_pos h]; exact h
  · rw [if_neg h]
    rcases chLe_total p.1 p.2 with h1 | h1
    · exact absurd h1 h
    · exact h1

/-- Components of `sortPair p` are components of `p`. -/
theorem sortPair_components (p : List Char × List Char) :
    ((sortPair p).1 = p.1 ∧ (sortPair p).2 = p.2) ∨
    ((sortPair p).1 = p.2 ∧ (sortPair p).2 = p.1) := by
  unfold sortPair
  by_cases h : chLe p.1 p.2 = true
  · rw [if_pos h]; left; exact ⟨rfl, rfl⟩
  · rw [if_neg h]; right; exact ⟨rfl, rfl⟩

/-- A character-free list splits to itself. -/
theorem splitChar_not_mem {c : Char} {s : List Char} (h : c ∉ s) :
    splitChar c s = [s] := by
  induction s with
  | nil => rfl
  | cons x xs ih =>
    have hxc : ¬x = c := by
      intro hc
      exact h (by rw [hc]; exact List.mem_cons_self _ _)
    have hrec : splitChar c xs = [xs] := ih (fun hm => h (List.mem_cons_of_mem _ hm))
    unfold splitChar
    rw [if_neg hxc, hrec]

/-- Splitting an encoded pair key recovers the two components when neither
contains the separator. -/
theorem splitChar_encode {c : Char} {a b : List Char} (ha : c ∉ a) (hb : c ∉ b) :
    splitChar c (a ++ c :: b) = [a, b] := by
  induction a with
  | nil =>
    show splitChar c (c :: b) = [[], b]
    unfold splitChar
    rw [if_pos rfl, splitChar_not_mem hb]
  | cons x xs ih =>
    have hxc : ¬x = c := by
      intro hc
      exact ha (by rw [hc]; exact List.mem_cons_self _ _)
    have hrec := ih (fun hm => ha (List.mem_cons_of_mem _ hm))
    show splitChar c (x :: (xs ++ c :: b)) = [x :: xs, b]
    unfold splitChar
    rw [if_neg hxc, hrec]

/-- Components of a pair produced by `allPairs` are members of the list. -/
theorem mem_of_mem_allPairs {α : Type} {l : List α} {p : α × α}
    (h : p ∈ allPairs l) : p.1 ∈ l ∧ p.2 ∈ l := by
  induction l with
  | nil => simp [allPairs] at h
  | cons x xs ih =>
    unfold allPairs at h
    rw [List.mem_append] at h
    rcases h with h | h
    · obtain ⟨y, hy, hp⟩ := List.mem_map.mp h
      rw [← hp]
      exact ⟨List.mem_cons_self _ _, List.mem_cons_of_mem _ hy⟩
    · obtain ⟨h1, h2⟩ := ih h
      exact ⟨List.mem_cons_of_mem _ h1, List.mem_cons_of_mem _ h2⟩

/-- Keys after a bump: unchanged when the key is present, appended when new. -/
theorem bumpAssoc_keys {α β : Type} [DecidableEq α] (f : β → β) (init : β)
    (k : α) (m : List (α × β)) :
    (bumpAssoc f init k m).map Prod.fst =
      if k ∈ m.map Prod.fst then m.map Prod.fst else m.map Prod.fst ++ [k] := by
  induction m with
  | nil => simp [bumpAssoc]
  | cons e rest ih =>
    obtain ⟨k', v⟩ := e
    by_cases hk : k' = k
    · subst hk
      simp [bumpAssoc]
    · have hne : ¬k = k' := fun hc => hk hc.symm
      simp only [bumpAssoc, if_neg hk, List.map_cons, List.mem_cons, hne,
        false_or, ih]
      split <;> simp

/-- The tally under `k` after one `addPairKey` bump. -/
theorem mval_addPairKey (m : List (List Char × Nat)) (k' k : List Char) :
    mval (addPairKey m k') k = mval m k + (if k' = k then 1 else 0) := by
  induction m with
  | nil =>
    show mval [(k', 1)] k = _
    by_cases h : k' = k <;> simp [mval, h]
  | cons e rest ih =>
    obtain ⟨a, v⟩ := e
    by_cases ha : a = k'
    · subst ha
      have hstep : addPairKey ((a, v) :: rest) a = (a, v + 1) :: rest := by
        unfold addPairKey bumpAssoc
        rw [if_pos rfl]
      rw [hstep]
      by_cases hak : a = k <;> simp [mval, hak] <;> try omega
    · have hstep : addPairKey ((a, v) :: rest) k' = (a, v) :: addPairKey rest k' := by
        show bumpAssoc (fun x => x + 1) 0 k' ((a, v) :: rest) = _
        rw [bumpAssoc, if_neg ha]
        rfl
      rw [hstep]
      simp only [mval, List.map_cons, List.sum_cons]
      have hrec := ih
      simp only [mval] at hrec
      rw [hrec]
      omega

/-- The tally under `k` after folding a whole key list. -/
theorem mval_foldl (keys : List (List Char)) :
    ∀ m k, mval (keys.foldl addPairKey m) k = mval m k + keys.count k := by
  induction keys with
  | nil => intro m k; simp
  | cons k' keys ih =>
    intro m k
    show mval (keys.foldl addPairKey (addPairKey m k')) k = _
    rw [ih, mval_addPairKey, List.count_cons]
    simp only [beq_iff_eq]
    by_cases h : k' = k <;> simp [h] <;> try omega

/-- Absent keys carry tally zero. -/
theorem mval_eq_zero_of_not_mem {m : List (List Char × Nat)} {k : List Char}
    (h : k ∉ m.map Prod.fst) : mval m k = 0 := by
  induction m with
  | nil => rfl
  | cons e rest ih =>
    have hk : ¬e.1 = k := by
      intro hc
      exact h (by rw [← hc]; exact List.mem_cons_self _ _)
    have hrest := ih (fun hm => h (List.mem_cons_of_mem _ hm))
    simp only [mval, List.map_cons, List.sum_cons, if_neg hk] at hrest ⊢
    omega

/-- With distinct keys, each stored entry equals the tally of its key. -/
theorem entry_eq_mval {m : List (List Char × Nat)}
    (hD : (m.map Prod.fst).Nodup) {e : List Char × Nat} (he : e ∈ m) :
    e.2 = mval m e.1 := by
  induction m with
  | nil => simp at he
  | cons a rest ih =>
    rw [List.map_cons, List.nodup_cons] at hD
    rcases List.mem_cons.mp he with hh | ht
    · subst hh
      have hz : mval rest e.1 = 0 := mval_eq_zero_of_not_mem hD.1
      simp only [mval, List.map_cons, List.sum_cons, eq_self_iff_true,
        if_true] at hz ⊢
      omega
    · have ha : ¬a.1 = e.1 := by
        intro hc
        exact hD.1 (hc ▸ (List.mem_map.mpr ⟨e, ht, rfl⟩))
      have := ih hD.2 ht
      simp only [mval, List.map_cons, List.sum_cons, if_neg ha] at this ⊢
      omega

/-- Folding preserves distinctness of keys. -/
theorem foldl_addPairKey_nodup (keys : List (List Char)) :
    ∀ m : List (List Char × Nat), (m.map Prod.fst).Nodup →
      ((keys.foldl addPairKey m).map Prod.fst).Nodup := by
  induction keys with
  | nil => intro m hm; exact hm
  | cons k keys ih =>
    intro m hm
    show ((keys.foldl addPairKey (addPairKey m k)).map Prod.fst).Nodup
    apply ih
    unfold addPairKey
    rw [bumpAssoc_keys]
    split
    · exact hm
    · rename_i hnot
      simp [List.nodup_append, hm, hnot]

/-- Keys in the folded map come from the initial map or the key list. -/
theorem mem_foldl_addPairKey (keys : List (List Char)) :
    ∀ (m : List (List Char × Nat)) (e : List Char × Nat),
      e ∈ keys.foldl addPairKey m → e.1 ∈ m.map Prod.fst ∨ e.1 ∈ keys := by
  induction keys with
  | nil =>
    intro m e he
    left
    exact List.mem_map.mpr ⟨e, he, rfl⟩
  | cons k keys ih =>
    intro m e he
    rcases ih (addPairKey m k) e he with hm | hk
    · unfold addPairKey at hm
      rw [bumpAssoc_keys] at hm
      by_cases hin : k ∈ m.map Prod.fst
      · rw [if_pos hin] at hm
        left; exact hm
      · rw [if_neg hin] at hm
        rcases List.mem_append.mp hm with h | h
        · left; exact h
        · right
          simp at h
          simp [h]
    · right
      exact List.mem_cons_of_mem _ hk

/-- The nested record/pair fold of `compute_co_occurrence` equals one fold
over the flattened key list. -/
theorem foldl_foldl_eq_flatMap {β : Type} (g : β → List (List Char))
    (rs : List β) :
    ∀ m : List (List Char × Nat),
      rs.foldl (fun m r => (g r).foldl addPairKey m) m =
        (rs.flatMap g).foldl addPairKey m := by
  induction rs with
  | nil => intro m; rfl
  | cons r rest ih =>
    intro m
    show rest.foldl _ ((g r).foldl addPairKey m) = _
    rw [ih, List.flatMap_cons, List.foldl_append]

/-- Occurrence count of a key across the flattened key list, record by
record. -/
theorem count_flatMap_eq_sum (rs : List Reflection) (k : List Char) :
    (rs.flatMap recordKeys).count k =
      (rs.map (fun r => (recordKeys r).count k)).sum := by
  induction rs with
  | nil => rfl
  | cons r rest ih =>
    simp only [List.flatMap_cons, List.count_append, List.map_cons,
      List.sum_cons, ih]

/-- Counting a value among the images of a map. -/
theorem count_map_eq_countP {α β : Type} [BEq β] (f : α → β)
    (l : List α) (y : β) :
    (l.map f).count y = l.countP (fun x => f x == y) := by
  induction l with
  | nil => rfl
  | cons x xs ih =>
    simp only [List.map_cons, List.count_cons, List.countP_cons, ih]

/-- Within one record (with separator-free identifiers), the number of
generated keys equal to an encoded pair key is the number of position pairs
whose sorted pair is that pair. -/
theorem recordKeys_count_eq (r : Reflection) (q : List Char × List Char)
    (hfree : ∀ e ∈ emotionsOfRecord r, '-' ∉ e)
    (hq1 : '-' ∉ q.1) (hq2 : '-' ∉ q.2) :
    (recordKeys r).count (q.1 ++ '-' :: q.2) =
      ((allPairs (emotionsOfRecord r)).filter
        (fun pr => sortPair pr = q)).length := by
  unfold recordKeys
  rw [count_map_eq_countP, ← List.countP_eq_length_filter]
  apply List.countP_congr
  intro pr hpr
  obtain ⟨hm1, hm2⟩ := mem_of_mem_allPairs hpr
  have hf1 := hfree _ hm1
  have hf2 := hfree _ hm2
  have hs : '-' ∉ (sortPair pr).1 ∧ '-' ∉ (sortPair pr).2 := by
    rcases sortPair_components pr with ⟨ha, hb⟩ | ⟨ha, hb⟩ <;>
      rw [ha, hb] <;> exact ⟨‹_›, ‹_›⟩
  simp only [beq_iff_eq, decide_eq_true_eq]
  constructor
  · intro h
    have hsp : splitChar '-' (pairKey pr) = splitChar '-' (q.1 ++ '-' :: q.2) :=
      congrArg _ h
    rw [splitChar_encode hq1 hq2] at hsp
    unfold pairKey at hsp
    rw [splitChar_encode hs.1 hs.2] at hsp
    have h1 : (sortPair pr).1 = q.1 := by
      injection hsp with ha hb
    have h2 : (sortPair pr).2 = q.2 := by
      injection hsp with ha hb
      injection hb with hc hd
    have : sortPair pr = ((sortPair pr).1, (sortPair pr).2) := rfl
    rw [this, h1, h2]
  · intro h
    unfold pairKey
    rw [h]

/-- C3 amended: when no emotion identifier contains the `'-'` separator, every
emitted `CoOccurrence` carries the two identifiers of its pair sorted
lexicographically, with `count` equal to the number of position pairs `i < j`
across all records that yield that sorted pair (and every emitted pair really
occurs). -/
theorem co_occurrence_pairs_sorted_and_counted (rs : List Reflection)
    (hnd : ∀ r ∈ rs, ∀ e ∈ emotionsOfRecord r, '-' ∉ e) :
    ∀ c ∈ compute_co_occurrence rs,
      chLe c.emotion_pair.1 c.emotion_pair.2 = true ∧
      0 < c.count ∧ c.count = pairOccurrences rs c.emotion_pair := by
  intro c hc
  unfold compute_co_occurrence at hc
  rw [foldl_foldl_eq_flatMap recordKeys rs] at hc
  have hc2 := List.take_subset 20 _ hc
  rw [List.mem_insertionSort] at hc2
  obtain ⟨e, he, hdec⟩ := List.mem_map.mp hc2
  have hkeymem : e.1 ∈ rs.flatMap recordKeys := by
    rcases mem_foldl_addPairKey (rs.flatMap recordKeys) [] e he with h | h
    · simp at h
    · exact h
  obtain ⟨r, hr, hk2⟩ := List.mem_flatMap.mp hkeymem
  obtain ⟨pr, hpr, hkeq⟩ := List.mem_map.mp hk2
  obtain ⟨hm1, hm2⟩ := mem_of_mem_allPairs hpr
  have hfree1 : '-' ∉ pr.1 := hnd r hr pr.1 hm1
  have hfree2 : '-' ∉ pr.2 := hnd r hr pr.2 hm2
  have hs : '-' ∉ (sortPair pr).1 ∧ '-' ∉ (sortPair pr).2 := by
    rcases sortPair_components pr with ⟨ha, hb⟩ | ⟨ha, hb⟩ <;>
      rw [ha, hb] <;> exact ⟨‹_›, ‹_›⟩
  have hksplit : splitChar '-' e.1 = [(sortPair pr).1, (sortPair pr).2] := by
    rw [← hkeq]
    unfold pairKey
    exact splitChar_encode hs.1 hs.2
  have hpair : c.emotion_pair = ((sortPair pr).1, (sortPair pr).2) := by
    rw [← hdec]
    simp only [hksplit]
  have hcount : c.count = e.2 := by rw [← hdec]
  have hval : e.2 = (rs.flatMap recordKeys).count e.1 := by
    have h1 := entry_eq_mval
      (foldl_addPairKey_nodup (rs.flatMap recordKeys) [] (by simp)) he
    rw [h1, mval_foldl]
    simp [mval]
  have hsum : (rs.flatMap recordKeys).count e.1 =
      pairOccurrences rs ((sortPair pr).1, (sortPair pr).2) := by
    rw [count_flatMap_eq_sum]
    unfold pairOccurrences
    congr 1
    apply List.map_congr_left
    intro r' hr'
    have : e.1 = (sortPair pr).1 ++ '-' :: (sortPair pr).2 := by
      rw [← hkeq]; rfl
    rw [this]
    exact recordKeys_count_eq r' ((sortPair pr).1, (sortPair pr).2)
      (hnd r' hr') hs.1 hs.2
  refine ⟨?_, ?_, ?_⟩
  · rw [hpair]
    exact chLe_sortPair pr
  · rw [hcount, hval]
    exact List.count_pos_iff.mpr hkeymem
  · rw [hcount, hval, hpair, hsum]

/-- C3 counterexample: with an identifier containing `'-'` (here `a-b` paired
with `c`), the emitted pair is the `("unknown","unknown")` fallback, not the
two identifiers sorted lexicographically. -/
theorem co_occurrence_dash_counterexample :
    (compute_co_occurrence
      [{ timestamp := [], emotion_id := some ("a-b".toList),
         related_emotions := some ["c".toList] }]).map
      (fun c => (c.emotion_pair, c.count)) =
      [(("unknown".toList, "unknown".toList), 1)] ∧
    sortPair ("a-b".toList, "c".toList) = ("a-b".toList, "c".toList) ∧
    ("unknown".toList, "unknown".toList) ≠ ("a-b".toList, "c".toList) := by
  decide

/-- Witness for `co_occurrence_pairs_sorted_and_counted` on the single
joy/excitement record. -/
theorem co_occurrence_pairs_witness :
    chLe ((compute_co_occurrence [joyReflection]).headD
        ⟨([], []), 0, 0⟩).emotion_pair.1
      ((compute_co_occurrence [joyReflection]).headD
        ⟨([], []), 0, 0⟩).emotion_pair.2 = true ∧
    0 < ((compute_co_occurrence [joyReflection]).headD ⟨([], []), 0, 0⟩).count ∧
    ((compute_co_occurrence [joyReflection]).headD ⟨([], []), 0, 0⟩).count =
      pairOccurrences [joyReflection]
        ((compute_co_occurrence [joyReflection]).headD
          ⟨([], []), 0, 0⟩).emotion_pair := by
  have hne : compute_co_occurrence [joyReflection] ≠ [] := by decide
  have hmem : (compute_co_occurrence [joyReflection]).headD ⟨([], []), 0, 0⟩ ∈
      compute_co_occurrence [joyReflection] := by
    cases hl : compute_co_occurrence [joyReflection] with
    | nil => exact absurd hl hne
    | cons a t => exact List.mem_cons_self _ _
  exact co_occurrence_pairs_sorted_and_counted [joyReflection] (by decide) _ hmem
